import Mathlib

/-!
Verification of the MRF (Multi-Resolution Filtering) pipeline in
`mrf/task.py`.  The definitions below are shallow embeddings of the
numerical logic of the source: pure per-pixel computations become Lean
functions over exact arithmetic (`ℚ` or `ℝ`), IEEE non-finite values
(NaN / ±Inf) are represented symbolically where the source tests for
them, and fallible code is modelled with `Option` / `Except`.
-/

namespace Mrf

/-! ### Tile-mode entry decision (MrfTileMode.run, step "Assess size")

Source: `if highres_x >= 1.5 * max_size or highres_y >= 1.5 * max_size:
tilemode = True ... else: tilemode = False`. -/

def tileDecision (highres_x highres_y max_size : ℕ) : Bool :=
  decide ((3 : ℚ) / 2 * max_size ≤ highres_x) || decide ((3 : ℚ) / 2 * max_size ≤ highres_y)

/-- The run mode implied by the decision: "Tiled" proceeds with the tile
grid, "NotTiled" leaves the frame to the single-frame pipeline. -/
def runMode (highres_x highres_y max_size : ℕ) : String :=
  if tileDecision highres_x highres_y max_size then "Tiled" else "NotTiled"

/-! ### Tile grid geometry (MrfTileMode.run, "Calculate number of tiles")

Source:
`N_x = np.ceil((1. + 2.*overlap) * highres_x/max_size)` (likewise `N_y`),
`N_tiles = int(N_x * N_y)`, `len_x = np.ceil(highres_x / N_x)` (likewise
`len_y`); for tile `i`: `x_index = int(i % N_x)`, `y_index = int(i / N_x)`,
`xmin = x_index * len_x`, `xmax = min(highres_x - 1, xmin + len_x)` and
analogously in y (the non-overlap bounding box, before the overlap margin
is introduced). -/

def tileNx (ov : ℚ) (x m : ℕ) : ℕ := (⌈(1 + 2 * ov) * x / m⌉ : ℤ).toNat

def tileLen (x n : ℕ) : ℕ := (x + n - 1) / n

/-- Pixel `p` lies in the non-overlap x-interval of the tile with grid
column `k`: `xmin = k * len ≤ p ≤ min (x - 1) (k * len + len) = xmax`. -/
abbrev inBox (x len p k : ℕ) : Prop :=
  k * len ≤ p ∧ p ≤ min (x - 1) (k * len + len)

/-- Pixel `(p, q)` lies in the non-overlap bounding box of tile `k` of the
grid for an `X`×`Y` frame (tile `k` has `x_index = k % N_x`,
`y_index = k / N_x`). -/
abbrev tileBoxContains (X Y : ℕ) (ov : ℚ) (M k p q : ℕ) : Prop :=
  inBox X (tileLen X (tileNx ov X M)) p (k % tileNx ov X M) ∧
  inBox Y (tileLen Y (tileNx ov Y M)) q (k / tileNx ov X M)

/-- Number of tiles (among the `N_tiles = N_x * N_y` tiles of the grid)
whose non-overlap bounding box contains pixel `(p, q)`. -/
def coverCount (X Y : ℕ) (ov : ℚ) (M p q : ℕ) : ℕ :=
  ((Finset.range (tileNx ov X M * tileNx ov Y M)).filter
    (fun k => tileBoxContains X Y ov M k p q)).card

/-! ### Run-entry assertion of MrfTask.run

Source: `assert (((config.lowres.dataset.lower() != 'df' or
config.lowres.dataset.lower() != 'dragonfly') and wide_psf == True) or
wide_psf == False)`. -/

def widePsfAssertCond (dataset : String) (wide_psf : Bool) : Bool :=
  ((dataset.toLower ≠ "df" : Bool) || (dataset.toLower ≠ "dragonfly" : Bool)) && wide_psf
    || !wide_psf

/-! ### Residual computation (MrfTask.run, step 9)

Source: `conv_model = convolve_fft(hires_fluxmod.image, kernel_med,
boundary='fill', fill_value=0, nan_treatment='fill',
normalize_kernel=False, allow_huge=True)` followed by
`res = Celestial(lowres.image - lowres_model.image, ...)` where `lowres`
is the magnified low-resolution image and `lowres_model` wraps
`conv_model`.  The image is a finite grid whose pixels may be NaN
(modelled as `none`); out-of-range indices read as the fill value 0 and
NaN pixels are treated as the fill value; the kernel is used exactly as
given (no renormalisation). -/

def fillPixel (h w : ℕ) (img : ℕ → ℕ → Option ℝ) (i j : ℤ) : ℝ :=
  if 0 ≤ i ∧ i < (h : ℤ) ∧ 0 ≤ j ∧ j < (w : ℤ) then (img i.toNat j.toNat).getD 0 else 0

def convolve_fft (h w kh kw : ℕ) (img : ℕ → ℕ → Option ℝ) (ker : ℕ → ℕ → ℝ)
    (i j : ℤ) : ℝ :=
  ∑ a ∈ Finset.range kh, ∑ b ∈ Finset.range kw,
    ker a b * fillPixel h w img (i + ((kh / 2 : ℕ) : ℤ) - a) (j + ((kw / 2 : ℕ) : ℤ) - b)

/-- `nan_treatment='fill'` with `fill_value=0`: every NaN pixel is
replaced by 0 before convolving. -/
def nanToFill (img : ℕ → ℕ → Option ℝ) : ℕ → ℕ → Option ℝ :=
  fun i j => some ((img i j).getD 0)

def residualPixel (h w kh kw : ℕ) (lowres_mag : ℤ → ℤ → ℝ)
    (fluxmod : ℕ → ℕ → Option ℝ) (ker : ℕ → ℕ → ℝ) (i j : ℤ) : ℝ :=
  lowres_mag i j - convolve_fft h w kh kw fluxmod ker i j

/-! ### Colour correction and flux-model sanitisation (MrfTask.run, steps 4 and 7)

Source: `col_ratio = b_imflux / r_imflux`;
`col_ratio[np.isnan(col_ratio) | np.isinf(col_ratio)] = 0`;
`fluxratio = col_ratio / median_col`;
`fluxratio[(fluxratio < 0.1) | (fluxratio > 10)] = 1`;
`col_correct = np.power(fluxratio, color_term)`;
`hires_3 = Celestial(hires_r.image * col_correct, ...)`;
then `hires_fluxmod = Celestial(seg_mask * hires_3.image, ...)` and
`hires_fluxmod.image[np.isnan(hires_fluxmod.image)] = 0`.
Pixel values are modelled as `FVal`: a finite value (exact arithmetic,
`ℚ`) or one of the IEEE non-finite values NaN, +Inf, -Inf.  The scalar
power map `x ** color_term` on positive finite bases is an external
numerical routine and is abstracted as a function parameter `powf`. -/

inductive FVal : Type
  | fin : ℚ → FVal
  | nan : FVal
  | pinf : FVal
  | ninf : FVal
deriving DecidableEq

def isFiniteVal : FVal → Bool
  | .fin _ => true
  | _ => false

/-- IEEE division of two finite values: a nonzero numerator over zero
gives an infinity carrying the numerator's sign (zeros are taken
positive), 0/0 gives NaN. -/
def fdiv (b r : ℚ) : FVal :=
  if r = 0 then (if b = 0 then .nan else if 0 < b then .pinf else .ninf)
  else .fin (b / r)

/-- `col_ratio[np.isnan | np.isinf] = 0`: non-finite ratio pixels are
replaced by the neutral value 0. -/
def ratioSanitize (v : FVal) : ℚ :=
  match v with
  | .fin x => x
  | _ => 0

/-- `fluxratio = col_ratio / median_col` where the sanitised ratio pixel
is finite but the global median may be any value (NaN for an empty
selection, 0, etc.). -/
def normRatio (x : ℚ) (med : FVal) : FVal :=
  match med with
  | .fin c =>
      if c = 0 then (if x = 0 then .nan else if 0 < x then .pinf else .ninf)
      else .fin (x / c)
  | .nan => .nan
  | .pinf => .fin 0
  | .ninf => .fin 0

/-- `fluxratio[(fluxratio < 0.1) | (fluxratio > 10)] = 1`.  IEEE
comparisons with an infinity are true, so both infinities are clamped to
1; comparisons with NaN are false, so NaN passes through. -/
def clampRatio (v : FVal) : FVal :=
  match v with
  | .fin x => if x < 0.1 ∨ 10 < x then .fin 1 else .fin x
  | .nan => .nan
  | .pinf => .fin 1
  | .ninf => .fin 1

/-- `np.power(v, ct)` where `powf` is the scalar power map on positive
finite bases.  A positive finite base gives a finite power; a nonpositive
finite base would in general give NaN for a non-integer exponent (such
bases cannot reach this point after clamping); `NaN ** 0 = 1`. -/
def fpow (powf : ℚ → ℚ) (ct : ℚ) (v : FVal) : FVal :=
  match v with
  | .fin x => if 0 < x then .fin (powf x) else .nan
  | .nan => if ct = 0 then .fin 1 else .nan
  | .pinf => if ct = 0 then .fin 1 else if 0 < ct then .pinf else .fin 0
  | .ninf => if ct = 0 then .fin 1 else .nan

/-- IEEE product of a finite value with a possibly non-finite one:
`0 * Inf = NaN`, otherwise an infinity keeps/flips sign. -/
def fmulFin (x : ℚ) (v : FVal) : FVal :=
  match v with
  | .fin y => .fin (x * y)
  | .nan => .nan
  | .pinf => if x = 0 then .nan else if 0 < x then .pinf else .ninf
  | .ninf => if x = 0 then .nan else if 0 < x then .ninf else .pinf

/-- `hires_fluxmod.image[np.isnan(hires_fluxmod.image)] = 0`. -/
def zeroNaN (v : FVal) : FVal :=
  match v with
  | .nan => .fin 0
  | w => w

def col_ratio_pix (b_imflux r_imflux : ℚ) : ℚ := ratioSanitize (fdiv b_imflux r_imflux)

def col_correct_pix (powf : ℚ → ℚ) (b_imflux r_imflux : ℚ) (median_col : FVal)
    (color_term : ℚ) : FVal :=
  fpow powf color_term (clampRatio (normRatio (col_ratio_pix b_imflux r_imflux) median_col))

def hires3_pix (powf : ℚ → ℚ) (img b_imflux r_imflux : ℚ) (median_col : FVal)
    (color_term : ℚ) : FVal :=
  fmulFin img (col_correct_pix powf b_imflux r_imflux median_col color_term)

def fluxmod_pix (powf : ℚ → ℚ) (seg_mask : Bool) (img b_imflux r_imflux : ℚ)
    (median_col : FVal) (color_term : ℚ) : FVal :=
  zeroNaN (fmulFin (if seg_mask then 1 else 0)
    (hires3_pix powf img b_imflux r_imflux median_col color_term))

/-! ### Hybrid PSF construction (MrfTask._subtract_widePSF, step 10.5)

Source: `inner_psf = median_psf / np.sum(median_psf)`; `flux_inn` is the
annulus flux of `inner_psf` at the hybrid radius (`compute_Rnorm`, an
external helper, abstracted here as a parameter); pixels outside the
circular aperture of the hybrid radius are set to NaN; the truncated core
is embedded centrally into a zero canvas
(`new_psf[oc-ic : oc+ic+1, oc-ic : oc+ic+1] = inner_psf`); the
unit-normalised aureole raster `outer_psf` gives `flux_out`;
`scale_factor = flux_out / flux_inn`; NaN canvas pixels are filled with
`outer_psf / scale_factor` and the aureole with its embed box zeroed is
added, likewise divided by `scale_factor`; finally
`new_psf /= np.sum(new_psf)` and
`factor = np.sum(median_psf) / np.sum(new_psf[embed box])`;
`new_psf *= factor`. -/

structure HybridParams where
  psfSize : ℕ
  innerCen : ℕ
  outerCen : ℕ
  median_psf : ℕ → ℕ → ℚ
  outer_psf : ℕ → ℕ → ℚ
  core : ℕ → ℕ → Bool
  flux_inn : ℚ
  flux_out : ℚ

def sumGrid (n : ℕ) (g : ℕ → ℕ → ℚ) : ℚ :=
  ∑ i ∈ Finset.range n, ∑ j ∈ Finset.range n, g i j

/-- `np.sum(median_psf)`. -/
def psfSumS (P : HybridParams) : ℚ := sumGrid (2 * P.innerCen + 1) P.median_psf

/-- `inner_psf = median_psf / np.sum(median_psf)`. -/
def inner_psf (P : HybridParams) : ℕ → ℕ → ℚ :=
  fun i j => P.median_psf i j / psfSumS P

/-- Canvas pixel lies in the embed box
`[oc - ic, oc + ic] × [oc - ic, oc + ic]`. -/
abbrev inEmbedBox (P : HybridParams) (i j : ℕ) : Prop :=
  P.outerCen - P.innerCen ≤ i ∧ i ≤ P.outerCen + P.innerCen ∧
  P.outerCen - P.innerCen ≤ j ∧ j ≤ P.outerCen + P.innerCen

/-- Canvas pixel belongs to the embedded empirical core: inside the embed
box and inside the circular aperture of the hybrid radius. -/
abbrev inCore (P : HybridParams) (i j : ℕ) : Prop :=
  inEmbedBox P i j ∧
  P.core (i - (P.outerCen - P.innerCen)) (j - (P.outerCen - P.innerCen)) = true

def scale_factor (P : HybridParams) : ℚ := P.flux_out / P.flux_inn

/-- Canvas after embedding the truncated core (`none` models the NaN
pixels of the masked inner PSF; pixels outside the embed box are the
zeros of `np.zeros`). -/
def new_psf0 (P : HybridParams) : ℕ → ℕ → Option ℚ :=
  fun i j =>
    if inEmbedBox P i j then
      (if P.core (i - (P.outerCen - P.innerCen)) (j - (P.outerCen - P.innerCen)) then
        some (inner_psf P (i - (P.outerCen - P.innerCen)) (j - (P.outerCen - P.innerCen)))
      else none)
    else some 0

/-- `new_psf[np.isnan(new_psf)] = temp[np.isnan(new_psf)] / scale_factor`. -/
def new_psf1 (P : HybridParams) : ℕ → ℕ → ℚ :=
  fun i j =>
    match new_psf0 P i j with
    | some v => v
    | none => P.outer_psf i j / scale_factor P

/-- `temp` after `temp[embed box] = 0`. -/
def temp_out (P : HybridParams) : ℕ → ℕ → ℚ :=
  fun i j => if inEmbedBox P i j then 0 else P.outer_psf i j

/-- `new_psf += temp / scale_factor`. -/
def new_psf2 (P : HybridParams) : ℕ → ℕ → ℚ :=
  fun i j => new_psf1 P i j + temp_out P i j / scale_factor P

def totalT (P : HybridParams) : ℚ := sumGrid P.psfSize (new_psf2 P)

/-- `new_psf /= np.sum(new_psf)`. -/
def new_psf3 (P : HybridParams) : ℕ → ℕ → ℚ :=
  fun i j => new_psf2 P i j / totalT P

/-- Sum of a canvas raster over the embed box. -/
def boxSum (P : HybridParams) (g : ℕ → ℕ → ℚ) : ℚ :=
  ∑ i ∈ Finset.Icc (P.outerCen - P.innerCen) (P.outerCen + P.innerCen),
    ∑ j ∈ Finset.Icc (P.outerCen - P.innerCen) (P.outerCen + P.innerCen), g i j

/-- `factor = np.sum(median_psf) / np.sum(new_psf[embed box])`. -/
def hybrid_factor (P : HybridParams) : ℚ := psfSumS P / boxSum P (new_psf3 P)

/-- The composite PSF after the final renormalisation and rescaling. -/
def final_psf (P : HybridParams) : ℕ → ℕ → ℚ :=
  fun i j => new_psf3 P i j * hybrid_factor P

/-- Flux of a canvas raster within the hybrid radius (over the embedded
core pixels). -/
def coreFlux (P : HybridParams) (g : ℕ → ℕ → ℚ) : ℚ :=
  ∑ i ∈ Finset.range P.psfSize, ∑ j ∈ Finset.range P.psfSize,
    if inCore P i j then g i j else 0

/-- Flux of the original empirical PSF over the same core pixels. -/
def empCoreFlux (P : HybridParams) : ℚ :=
  ∑ i ∈ Finset.range P.psfSize, ∑ j ∈ Finset.range P.psfSize,
    if inCore P i j then
      P.median_psf (i - (P.outerCen - P.innerCen)) (j - (P.outerCen - P.innerCen))
    else 0

/-- Net renormalisation applied to the embedded empirical core: division
by `np.sum(median_psf)` at normalisation, division by `np.sum(new_psf)`,
and multiplication by `factor`. -/
def renormFactor (P : HybridParams) : ℚ :=
  hybrid_factor P / (totalT P * psfSumS P)

/-- A tiny concrete hybrid-PSF configuration: 5×5 canvas, 3×3 inner PSF
whose core is the single centre pixel, constant rasters, annulus fluxes
2 and 3. -/
def hybridExample : HybridParams where
  psfSize := 5
  innerCen := 1
  outerCen := 2
  median_psf := fun _ _ => 1
  outer_psf := fun _ _ => 1
  core := fun i j => decide (i = 1 ∧ j = 1)
  flux_inn := 2
  flux_out := 3

/-! ### Bright-star flux selection (MrfTask._subtract_widePSF, halo loop)

Source: `if obj['mag'] < 15.5: if obj[band + 'MeanPSFMag']:
norm = 10**((-np.poly1d(pfit)(obj[band + 'MeanPSFMag'])) / 2.5)
else: norm = obj['flux']  else: norm = obj['flux']`.
The cross-matched Pan-STARRS magnitude is `none` when the matched column
entry is masked (no counterpart within 5 arcsec); Python truthiness also
treats a 0.0 magnitude as unavailable.  The fit sample is
`flag = (mag < 16) & (mag > 0) & ~mask`.  The scalar map `y ↦ 10 ** y`
is an external numerical routine, abstracted as a parameter `tenPow`. -/

def polyval2 (a b c m : ℚ) : ℚ := a * m ^ 2 + b * m + c

def psMagTruthy (extMag : Option ℚ) : Bool :=
  match extMag with
  | some v => decide (v ≠ 0)
  | none => false

def starNorm (tenPow : ℚ → ℚ) (mag flux : ℚ) (extMag : Option ℚ) (a b c : ℚ) : ℚ :=
  if mag < 15.5 then
    if psMagTruthy extMag then tenPow (-(polyval2 a b c (extMag.getD 0)) / 2.5)
    else flux
  else flux

def fitSelect (extMag : ℚ) (masked : Bool) : Bool :=
  (decide (extMag < 16) && decide (0 < extMag)) && !masked

/-! ### PSF stacking with sentinel replacement (MrfTask.run, step 10)

Source: per star, the processing inside `try:` either yields a normalised
patch or raises, in which case `stack_set[i, :, :] = np.ones(...) * 1e9`
and `bad_indices.append(i)`; afterwards
`stack_set = np.delete(stack_set, bad_indices, axis=0)` and
`median_psf = np.nanmedian(stack_set, axis=0)`.  A star's processing
outcome is modelled as `Option α` (`none` = exception raised), and the
median combiner as an abstract function on the list of stacked patches. -/

def stackSet {α : Type} (proc : List (Option α)) (sentinel : α) : List α :=
  proc.map (fun o => o.getD sentinel)

def badIndices {α : Type} : List (Option α) → List ℕ
  | [] => []
  | none :: rest => 0 :: (badIndices rest).map (· + 1)
  | some _ :: rest => (badIndices rest).map (· + 1)

def shiftDown : List ℕ → List ℕ
  | [] => []
  | 0 :: rest => shiftDown rest
  | (m + 1) :: rest => m :: shiftDown rest

/-- `np.delete(l, bad, axis=0)`: drop the entries whose position occurs
in `bad`. -/
def npDelete {α : Type} : List α → List ℕ → List α
  | [], _ => []
  | a :: rest, bad => (if 0 ∈ bad then [] else [a]) ++ npDelete rest (shiftDown bad)

def medianStack {α : Type} (medFn : List α → α) (proc : List (Option α)) (sentinel : α) : α :=
  medFn (npDelete (stackSet proc sentinel) (badIndices proc))

/-! ### Tile cutting with silent skip, and the trim stage (MrfTileMode.run)

Source: the cutting loop runs `i` over `range(N_tiles)`; the low-res
cutout is attempted inside `try:` and `except NoOverlapError: skipped +=
1; continue` skips the tile before any file is written and before
`tiles_xcen.append(...)` and `j += 1`.  The later trim stage runs `i`
over `range(0, N_tiles)` and reads `tiles_xcen[i]` (a list of length
`N_tiles - skipped`); an out-of-range read is an uncaught IndexError
modelled as `none`. -/

/-- One pass of the cutting loop: returns `(j, skipped, tiles_xcen)`
where `j` counts written tiles, `skipped` counts tiles whose low-res
cutout had no overlap, and `tiles_xcen` records the per-tile centre data
appended for each written tile (represented by the tile's grid index). -/
def tileCutLoop (n_tiles : ℕ) (hasOverlap : ℕ → Bool) : ℕ × ℕ × List ℕ :=
  (List.range n_tiles).foldl
    (fun acc i =>
      if hasOverlap i then (acc.1 + 1, acc.2.1, acc.2.2 ++ [i])
      else (acc.1, acc.2.1 + 1, acc.2.2))
    (0, 0, [])

/-- The trim stage reads `tiles_xcen[i]` for every `i < N_tiles`;
`none` models the IndexError aborting the run. -/
def trimStage (n_tiles : ℕ) (tiles_xcen : List ℕ) : Option (List ℕ) :=
  (List.range n_tiles).mapM (fun i => tiles_xcen[i]?)

/-! ### Tile stitching (MrfTileMode.run, "Stitch images", and MrfTileMode._stitch)

Source: `if not (stitch_method == "swarp" or stitch_method ==
"reproject"): raise ValueError(...)`; in `_stitch`, for swarp
`combine_type = "SUM"` for masks and `"MEDIAN"` otherwise, and for
reproject `combine_function = 'sum'` for masks and `'mean'` otherwise;
the stitched swarp mask is thresholded by `(hdu.data > 0)`; the run-level
combination is `final = Celestial(img * (~msk), ...)` with
`msk = data.astype(bool)`; the input file list is
`[f'..._final_tile_{i}.fits' for i in range(16)]` independent of how many
tiles the run produced. -/

/-- Combine rule chosen by the run-level guard plus `_stitch`.  The
source lowercases the method before the swarp test; both spellings the
guard admits are already lowercase, so the comparison is used directly. -/
def stitchCombine (method imgtype : String) : Except String String :=
  if ¬ (method = "swarp" ∨ method = "reproject") then
    Except.error "stitch_method must be swarp or reproject"
  else if method = "swarp" then
    (if imgtype = "mask" then Except.ok "SUM" else Except.ok "MEDIAN")
  else
    (if imgtype = "mask" then Except.ok "sum" else Except.ok "mean")

def swarpMaskThreshold (x : ℚ) : ℚ := if 0 < x then 1 else 0

def maskPixelFlagged (x : ℚ) : Bool := decide (x ≠ 0)

/-- `final = img * (~msk)`: the boolean mask is negated and multiplied
into the image, blanking flagged pixels. -/
def combineFinalPixel (img : ℚ) (mskFlag : Bool) : ℚ :=
  img * (if mskFlag then 0 else 1)

/-- The list of tile files passed to the stitcher; `n_tiles` (the number
of tiles the run produced) is accepted to show it is not consulted. -/
def stitchFilenameList (tile_dir target_name band : String) (n_tiles : ℕ) : List String :=
  (List.range 16).map
    (fun i =>
      tile_dir ++ "/" ++ target_name ++ "_" ++ band ++ "_final_tile_" ++ toString i ++ ".fits")

/-! ### Supporting lemmas for PSF stacking -/

lemma shiftDown_map_succ (l : List ℕ) : shiftDown (l.map (· + 1)) = l := by
  induction l with
  | nil => rfl
  | cons a l ih => simp [shiftDown, List.map_cons, ih]

lemma npDelete_stackSet {α : Type} (proc : List (Option α)) (s : α) :
    npDelete (stackSet proc s) (badIndices proc) = proc.filterMap id := by
  induction proc with
  | nil => rfl
  | cons o rest ih =>
    cases o with
    | none =>
      simp only [stackSet, List.map_cons, Option.getD_none, badIndices, npDelete,
        List.mem_cons, shiftDown, shiftDown_map_succ, List.filterMap_cons]
      simp only [stackSet] at ih
      simpa using ih
    | some a =>
      simp only [stackSet, List.map_cons, Option.getD_some, badIndices, npDelete,
        List.filterMap_cons]
      have h0 : (0 ∈ (badIndices rest).map (· + 1)) = False := by simp
      simp only [h0, if_neg]
      simp only [stackSet] at ih
      simp [shiftDown_map_succ, ih]

lemma badIndices_length {α : Type} (proc : List (Option α)) :
    (badIndices proc).length + (proc.filterMap id).length = proc.length := by
  induction proc with
  | nil => rfl
  | cons o rest ih =>
    cases o with
    | none => simp [badIndices, List.filterMap_cons]; omega
    | some a => simp [badIndices, List.filterMap_cons]; omega

/-! ### Supporting lemma for the colour-correction clamp -/

lemma clampRatio_cases (v : FVal) :
    (∃ x, clampRatio v = .fin x ∧ 1 / 10 ≤ x) ∨ clampRatio v = .nan := by
  cases v with
  | fin x =>
    by_cases h : x < 0.1 ∨ 10 < x
    · exact Or.inl ⟨1, by simp [clampRatio, h], by norm_num⟩
    · refine Or.inl ⟨x, by simp [clampRatio, h], ?_⟩
      push_neg at h
      calc (1 : ℚ) / 10 = 0.1 := by norm_num
        _ ≤ x := h.1
  | nan => exact Or.inr rfl
  | pinf => exact Or.inl ⟨1, rfl, by norm_num⟩
  | ninf => exact Or.inl ⟨1, rfl, by norm_num⟩

/-! ### Supporting lemmas for the hybrid PSF -/

lemma new_psf2_outside (P : HybridParams) (i j : ℕ) (h : ¬ inCore P i j) :
    new_psf2 P i j = P.outer_psf i j * (P.flux_inn / P.flux_out) := by
  unfold new_psf2 new_psf1 temp_out scale_factor
  by_cases hbox : inEmbedBox P i j
  · have hcore : ¬ P.core (i - (P.outerCen - P.innerCen)) (j - (P.outerCen - P.innerCen)) = true :=
      fun hc => h ⟨hbox, hc⟩
    simp only [new_psf0, if_pos hbox, if_neg hcore, scale_factor]
    simp [div_div_eq_mul_div, mul_div_assoc]
  · simp only [new_psf0, if_neg hbox]
    simp [div_div_eq_mul_div, mul_div_assoc]

lemma final_psf_core (P : HybridParams) (i j : ℕ) (h : inCore P i j) :
    final_psf P i j = renormFactor P *
      P.median_psf (i - (P.outerCen - P.innerCen)) (j - (P.outerCen - P.innerCen)) := by
  obtain ⟨hbox, hcore⟩ := h
  have h2 : new_psf2 P i j
      = P.median_psf (i - (P.outerCen - P.innerCen)) (j - (P.outerCen - P.innerCen))
          / psfSumS P := by
    unfold new_psf2 new_psf1 temp_out
    simp only [new_psf0, if_pos hbox, if_pos hcore, inner_psf]
    simp
  unfold final_psf new_psf3 renormFactor
  rw [h2]
  ring

/-! ### Supporting lemmas about the tile grid -/

lemma tileLen_pos (x n : ℕ) (hx : 1 ≤ x) (hn : 1 ≤ n) : 1 ≤ tileLen x n := by
  unfold tileLen
  exact (Nat.le_div_iff_mul_le (by omega)).mpr (by omega)

lemma le_mul_tileLen (x n : ℕ) (hx : 1 ≤ x) (hn : 1 ≤ n) : x ≤ n * tileLen x n := by
  unfold tileLen
  have h1 := Nat.div_add_mod (x + n - 1) n
  have h2 : (x + n - 1) % n < n := Nat.mod_lt _ (by omega)
  generalize hA : n * ((x + n - 1) / n) = A at h1 ⊢
  generalize hB : (x + n - 1) % n = B at h1 h2
  omega

lemma tileNx_pos (ov : ℚ) (x m : ℕ) (hx : 1 ≤ x) (hm : 1 ≤ m) (hov : 0 ≤ ov) :
    1 ≤ tileNx ov x m := by
  unfold tileNx
  have hx' : (0 : ℚ) < x := by exact_mod_cast Nat.lt_of_lt_of_le Nat.zero_lt_one hx
  have hm' : (0 : ℚ) < m := by exact_mod_cast Nat.lt_of_lt_of_le Nat.zero_lt_one hm
  have hpos : (0 : ℚ) < (1 + 2 * ov) * x / m :=
    div_pos (mul_pos (by linarith) hx') hm'
  have hc := Int.ceil_pos.mpr hpos
  omega

/-- Characterisation of the tiles whose non-overlap x-interval contains a
pixel `p`: exactly the tile column `p / len`, plus additionally the column
`p / len - 1` when `p` is a positive multiple of the tile length. -/
lemma inBox_iff (X len p k : ℕ) (hlen : 1 ≤ len) (hpX : p < X) :
    inBox X len p k ↔ (k = p / len ∨ (len ∣ p ∧ 0 < p ∧ k + 1 = p / len)) := by
  have hp1 : p ≤ X - 1 := by omega
  constructor
  · rintro ⟨h1, h2⟩
    have h2' : p ≤ k * len + len := le_trans h2 (min_le_right _ _)
    have hk_le : k ≤ p / len := (Nat.le_div_iff_mul_le (by omega)).mpr h1
    have hd_le : p / len ≤ k + 1 := by
      have hh : p ≤ (k + 1) * len := by
        calc p ≤ k * len + len := h2'
          _ = (k + 1) * len := by ring
      calc p / len ≤ ((k + 1) * len) / len := Nat.div_le_div_right hh
        _ = k + 1 := Nat.mul_div_cancel (k + 1) (by omega)
    rcases Nat.eq_or_lt_of_le hk_le with he | hlt
    · exact Or.inl he
    · right
      have hdk : p / len = k + 1 := by omega
      have hge : (k + 1) * len ≤ p :=
        (Nat.le_div_iff_mul_le (by omega)).mp (by omega)
      have hpe : p = (k + 1) * len := by
        refine le_antisymm ?_ hge
        calc p ≤ k * len + len := h2'
          _ = (k + 1) * len := by ring
      refine ⟨⟨k + 1, by rw [hpe]; ring⟩, ?_, hdk.symm⟩
      rw [hpe]
      positivity
  · rintro (rfl | ⟨⟨c, hc⟩, hp0, hk1⟩)
    · refine ⟨Nat.div_mul_le_self p len, le_min hp1 ?_⟩
      have h1 := Nat.div_add_mod' p len
      have h2 : p % len < len := Nat.mod_lt _ (by omega)
      generalize hA : p / len * len = A at h1 ⊢
      omega
    · have hpd : p / len = c := by
        rw [hc]
        exact Nat.mul_div_cancel_left c (by omega)
      have hkc : k + 1 = c := by omega
      constructor
      · rw [hc, ← hkc]
        calc k * len ≤ (k + 1) * len := Nat.mul_le_mul_right _ (by omega)
          _ = len * (k + 1) := by ring
      · refine le_min hp1 ?_
        rw [hc, ← hkc]
        exact le_of_eq (by ring)

/-- In one axis, the number of tile intervals containing a pixel is 2 at
interior tile boundaries (positive multiples of the tile length) and 1
everywhere else. -/
lemma boxes1D_card (X n len p : ℕ) (hlen : 1 ≤ len) (hcov : X ≤ n * len) (hp : p < X) :
    ((Finset.range n).filter (fun k => inBox X len p k)).card
      = if len ∣ p ∧ 0 < p then 2 else 1 := by
  have hn : 1 ≤ n := by
    rcases Nat.eq_zero_or_pos n with h | h
    · subst h; simp at hcov; omega
    · exact h
  have hdlt : p / len < n := (Nat.div_lt_iff_lt_mul (by omega)).mpr (by omega)
  by_cases hb : len ∣ p ∧ 0 < p
  · have hd1 : 1 ≤ p / len := by
      have hlep := Nat.le_of_dvd hb.2 hb.1
      exact (Nat.le_div_iff_mul_le (by omega)).mpr (by omega)
    have hset : ((Finset.range n).filter (fun k => inBox X len p k))
        = {p / len - 1, p / len} := by
      ext k
      simp only [Finset.mem_filter, Finset.mem_range, Finset.mem_insert,
        Finset.mem_singleton]
      rw [inBox_iff X len p k hlen hp]
      constructor
      · rintro ⟨hkn, rfl | ⟨h1, h2, h3⟩⟩
        · right; rfl
        · left; omega
      · rintro (rfl | rfl)
        · exact ⟨by omega, Or.inr ⟨hb.1, hb.2, by omega⟩⟩
        · exact ⟨hdlt, Or.inl rfl⟩
    rw [hset, if_pos hb]
    rw [Finset.card_insert_of_not_mem (by simp; omega), Finset.card_singleton]
  · have hset : ((Finset.range n).filter (fun k => inBox X len p k)) = {p / len} := by
      ext k
      simp only [Finset.mem_filter, Finset.mem_range, Finset.mem_singleton]
      rw [inBox_iff X len p k hlen hp]
      constructor
      · rintro ⟨hkn, rfl | ⟨h1, h2, h3⟩⟩
        · rfl
        · exact absurd ⟨h1, h2⟩ hb
      · rintro rfl; exact ⟨hdlt, Or.inl rfl⟩
    rw [hset, if_neg hb, Finset.card_singleton]

lemma mod_mul_add (nx a b : ℕ) (ha : a < nx) : (b * nx + a) % nx = a := by
  rw [Nat.mul_comm b nx, Nat.mul_add_mod, Nat.mod_eq_of_lt ha]

lemma div_mul_add (nx a b : ℕ) (hx : 0 < nx) (ha : a < nx) : (b * nx + a) / nx = b := by
  rw [Nat.mul_comm b nx, Nat.mul_add_div hx, Nat.div_eq_of_lt ha]
  omega

/-- Tile indices `k < nx * ny` decompose as the grid coordinates
`(k % nx, k / nx)`, so a count over the whole grid is the product of the
per-axis counts. -/
lemma grid_card (nx ny : ℕ) (hx : 0 < nx) (P Q : ℕ → Prop)
    [DecidablePred P] [DecidablePred Q] :
    ((Finset.range (nx * ny)).filter (fun k => P (k % nx) ∧ Q (k / nx))).card
      = ((Finset.range nx).filter P).card * ((Finset.range ny).filter Q).card := by
  rw [← Finset.card_product]
  apply Finset.card_nbij' (fun k => (k % nx, k / nx)) (fun a => a.2 * nx + a.1)
  · intro k hk
    simp only [Finset.mem_filter, Finset.mem_range, Finset.mem_product] at hk ⊢
    obtain ⟨hkr, hP, hQ⟩ := hk
    refine ⟨⟨Nat.mod_lt _ hx, hP⟩, (Nat.div_lt_iff_lt_mul hx).mpr ?_, hQ⟩
    rw [Nat.mul_comm]
    exact hkr
  · intro a ha
    simp only [Finset.mem_filter, Finset.mem_range, Finset.mem_product] at ha ⊢
    obtain ⟨⟨ha1, hP⟩, ha2, hQ⟩ := ha
    refine ⟨?_, ?_, ?_⟩
    · calc a.2 * nx + a.1 < a.2 * nx + nx := Nat.add_lt_add_left ha1 _
        _ = (a.2 + 1) * nx := by ring
        _ ≤ ny * nx := Nat.mul_le_mul_right nx (by omega)
        _ = nx * ny := Nat.mul_comm _ _
    · rw [mod_mul_add nx a.1 a.2 ha1]; exact hP
    · rw [div_mul_add nx a.1 a.2 hx ha1]; exact hQ
  · intro k hk
    rw [Nat.mul_comm]
    exact Nat.div_add_mod k nx
  · intro a ha
    simp only [Finset.mem_filter, Finset.mem_range, Finset.mem_product] at ha
    obtain ⟨⟨ha1, hP⟩, ha2, hQ⟩ := ha
    rw [mod_mul_add nx a.1 a.2 ha1, div_mul_add nx a.1 a.2 hx ha1]

end Mrf

/-- Claim C10: the run-entry assertion guarding wide-PSF subtraction is
vacuous: its condition evaluates to true for every dataset string and
every value of the wide_psf flag, so no dataset is ever rejected. -/
theorem c10_widepsf_assert_vacuous (dataset : String) (wide_psf : Bool) :
    Mrf.widePsfAssertCond dataset wide_psf = true := by
  unfold Mrf.widePsfAssertCond
  cases wide_psf with
  | false => simp
  | true =>
    by_cases h : dataset.toLower = "df"
    · simp [h]
    · simp [h]

/-- Claim C8: the tiled/not-tiled decision compares the high-resolution
frame dimensions against 1.5 times the configured maximum tile size:
the frame is tiled iff either dimension is at least 1.5*max_size
(equivalently 2*dim ≥ 3*max_size); with max_size 8000, a 7999-pixel
frame is NotTiled and a 12001-pixel frame is Tiled. -/
theorem c8_tile_threshold :
    (∀ x y M : ℕ, Mrf.tileDecision x y M = true ↔ 3 * M ≤ 2 * x ∨ 3 * M ≤ 2 * y) ∧
    Mrf.runMode 7999 7999 8000 = "NotTiled" ∧
    Mrf.runMode 12001 12001 8000 = "Tiled" := by
  have char : ∀ x y M : ℕ,
      Mrf.tileDecision x y M = true ↔ 3 * M ≤ 2 * x ∨ 3 * M ≤ 2 * y := by
    intro x y M
    unfold Mrf.tileDecision
    rw [Bool.or_eq_true, decide_eq_true_iff, decide_eq_true_iff]
    constructor
    · rintro (h | h)
      · left
        have : (3 : ℚ) * M ≤ 2 * x := by linarith
        exact_mod_cast this
      · right
        have : (3 : ℚ) * M ≤ 2 * y := by linarith
        exact_mod_cast this
    · rintro (h | h)
      · left
        have : (3 : ℚ) * M ≤ 2 * x := by exact_mod_cast h
        linarith
      · right
        have : (3 : ℚ) * M ≤ 2 * y := by exact_mod_cast h
        linarith
  refine ⟨char, ?_, ?_⟩
  · have h : Mrf.tileDecision 7999 7999 8000 = false := by
      cases htd : Mrf.tileDecision 7999 7999 8000 with
      | false => rfl
      | true =>
        rcases (char 7999 7999 8000).mp htd with h | h <;> omega
    unfold Mrf.runMode
    rw [h]
    simp
  · have h : Mrf.tileDecision 12001 12001 8000 = true := by
      exact (char 12001 12001 8000).mpr (Or.inl (by omega))
    unfold Mrf.runMode
    rw [h]
    simp

/-- Claim C1 (counterexample): with a 10×10 frame, max_size 5 and overlap
0 the scheduler makes a 2×2 grid with tile length 5, and pixel (5, 0) lies
in the non-overlap bounding boxes of two different tiles, so the boxes do
not cover every pixel exactly once. -/
theorem c1_cover_counterexample :
    Mrf.coverCount 10 10 0 5 5 0 = 2 ∧ ¬ Mrf.coverCount 10 10 0 5 5 0 = 1 := by
  have hnx : Mrf.tileNx 0 10 5 = 2 := by
    unfold Mrf.tileNx
    norm_num
    decide
  have h2 : Mrf.coverCount 10 10 0 5 5 0 = 2 := by
    unfold Mrf.coverCount
    simp only [Mrf.tileBoxContains, Mrf.inBox, hnx]
    decide
  exact ⟨h2, by omega⟩

/-- Claim C1 (amended): for every frame size and every overlap fraction in
[0, 1/2), the non-overlap tile boxes cover every pixel of the reference
frame with no gaps, but not always exactly once: the per-pixel
multiplicity is the product over the two axes of (2 if the coordinate is a
positive multiple of that axis's tile length, else 1), so pixels on
interior tile boundaries are shared by adjacent boxes. -/
theorem c1_cover_amended (X Y M : ℕ) (ov : ℚ) (p q : ℕ)
    (hX : 1 ≤ X) (hY : 1 ≤ Y) (hM : 1 ≤ M) (hov0 : 0 ≤ ov) (hov1 : ov < 1 / 2)
    (hp : p < X) (hq : q < Y) :
    1 ≤ Mrf.coverCount X Y ov M p q ∧
    Mrf.coverCount X Y ov M p q =
      (if Mrf.tileLen X (Mrf.tileNx ov X M) ∣ p ∧ 0 < p then 2 else 1) *
      (if Mrf.tileLen Y (Mrf.tileNx ov Y M) ∣ q ∧ 0 < q then 2 else 1) := by
  have hnx : 1 ≤ Mrf.tileNx ov X M := Mrf.tileNx_pos ov X M hX hM hov0
  have hny : 1 ≤ Mrf.tileNx ov Y M := Mrf.tileNx_pos ov Y M hY hM hov0
  have hlx : 1 ≤ Mrf.tileLen X (Mrf.tileNx ov X M) := Mrf.tileLen_pos X _ hX hnx
  have hly : 1 ≤ Mrf.tileLen Y (Mrf.tileNx ov Y M) := Mrf.tileLen_pos Y _ hY hny
  have hcx : X ≤ Mrf.tileNx ov X M * Mrf.tileLen X (Mrf.tileNx ov X M) :=
    Mrf.le_mul_tileLen X _ hX hnx
  have hcy : Y ≤ Mrf.tileNx ov Y M * Mrf.tileLen Y (Mrf.tileNx ov Y M) :=
    Mrf.le_mul_tileLen Y _ hY hny
  have hgrid : Mrf.coverCount X Y ov M p q
      = ((Finset.range (Mrf.tileNx ov X M)).filter
          (fun k => Mrf.inBox X (Mrf.tileLen X (Mrf.tileNx ov X M)) p k)).card *
        ((Finset.range (Mrf.tileNx ov Y M)).filter
          (fun k => Mrf.inBox Y (Mrf.tileLen Y (Mrf.tileNx ov Y M)) q k)).card :=
    Mrf.grid_card (Mrf.tileNx ov X M) (Mrf.tileNx ov Y M) (by omega)
      (fun k => Mrf.inBox X (Mrf.tileLen X (Mrf.tileNx ov X M)) p k)
      (fun k => Mrf.inBox Y (Mrf.tileLen Y (Mrf.tileNx ov Y M)) q k)
  have hxcard := Mrf.boxes1D_card X (Mrf.tileNx ov X M)
    (Mrf.tileLen X (Mrf.tileNx ov X M)) p hlx hcx hp
  have hycard := Mrf.boxes1D_card Y (Mrf.tileNx ov Y M)
    (Mrf.tileLen Y (Mrf.tileNx ov Y M)) q hly hcy hq
  rw [hgrid, hxcard, hycard]
  refine ⟨?_, rfl⟩
  split_ifs <;> omega

/-- Witness for C1 (amended): concrete 10×10 frame, max_size 5, overlap 0;
the interior pixel (3, 4) is covered by exactly one non-overlap box. -/
theorem c1_cover_amended_witness :
    (0 : ℚ) ≤ 0 ∧ (0 : ℚ) < 1 / 2 ∧ 3 < 10 ∧ 4 < 10 ∧
    1 ≤ Mrf.coverCount 10 10 0 5 3 4 ∧ Mrf.coverCount 10 10 0 5 3 4 = 1 := by
  have h := c1_cover_amended 10 10 5 0 3 4 (by norm_num) (by norm_num) (by norm_num)
    (by norm_num) (by norm_num) (by norm_num) (by norm_num)
  refine ⟨by norm_num, by norm_num, by norm_num, by norm_num, h.1, ?_⟩
  have hnx : Mrf.tileNx 0 10 5 = 2 := by
    unfold Mrf.tileNx
    norm_num
    decide
  rw [h.2]
  rw [hnx]
  decide

/-- Claim C2: the residual computation subtracts the kernel-convolved
flux model from the magnified low-resolution image, where the convolution
uses the kernel exactly as given (no renormalisation: the output is
homogeneous in any rescaling of the kernel, hence linear in its total
sum), fills the boundary with zero, and treats NaN pixels as the zero
fill (replacing NaNs by 0 leaves the output unchanged). -/
theorem c2_residual_convolution (h w kh kw : ℕ) (lowres_mag : ℤ → ℤ → ℝ)
    (fluxmod : ℕ → ℕ → Option ℝ) (ker : ℕ → ℕ → ℝ) (c : ℝ) (i j : ℤ) :
    Mrf.residualPixel h w kh kw lowres_mag fluxmod ker i j
      = lowres_mag i j - Mrf.convolve_fft h w kh kw fluxmod ker i j ∧
    Mrf.convolve_fft h w kh kw fluxmod (fun a b => c * ker a b) i j
      = c * Mrf.convolve_fft h w kh kw fluxmod ker i j ∧
    Mrf.convolve_fft h w kh kw (Mrf.nanToFill fluxmod) ker i j
      = Mrf.convolve_fft h w kh kw fluxmod ker i j := by
  refine ⟨rfl, ?_, ?_⟩
  · unfold Mrf.convolve_fft
    rw [Finset.mul_sum]
    refine Finset.sum_congr rfl (fun a _ => ?_)
    rw [Finset.mul_sum]
    refine Finset.sum_congr rfl (fun b _ => ?_)
    ring
  · unfold Mrf.convolve_fft
    refine Finset.sum_congr rfl (fun a _ => ?_)
    refine Finset.sum_congr rfl (fun b _ => ?_)
    have hfill : ∀ x y : ℤ,
        Mrf.fillPixel h w (Mrf.nanToFill fluxmod) x y = Mrf.fillPixel h w fluxmod x y := by
      intro x y
      unfold Mrf.fillPixel Mrf.nanToFill
      split
      · rfl
      · rfl
    rw [hfill]

/-- Claim C3: the colour-correction stage replaces every non-finite
(NaN/Inf) pixel of the band ratio by the neutral value 0, forces every
normalised ratio below 0.1 or above 10 to 1, and (after the flux model's
NaN pixels are zeroed) the resulting flux-model pixel is finite — neither
NaN nor Inf — for every finite band-flux input, every value of the global
ratio median, every colour term and every segmentation-mask bit. -/
theorem c3_flux_model_finite :
    (∀ (powf : ℚ → ℚ) (b r img color_term : ℚ) (med : Mrf.FVal) (seg : Bool),
      Mrf.isFiniteVal (Mrf.fluxmod_pix powf seg img b r med color_term) = true) ∧
    (∀ v : Mrf.FVal, Mrf.isFiniteVal v = false → Mrf.ratioSanitize v = 0) ∧
    (∀ x : ℚ, x < 0.1 ∨ 10 < x → Mrf.clampRatio (.fin x) = .fin 1) := by
  refine ⟨?_, ?_, ?_⟩
  · intro powf b r img ct med seg
    unfold Mrf.fluxmod_pix Mrf.hires3_pix Mrf.col_correct_pix
    rcases Mrf.clampRatio_cases (Mrf.normRatio (Mrf.col_ratio_pix b r) med) with
      ⟨x, hx, hge⟩ | hnan
    · rw [hx]
      have hxpos : 0 < x := lt_of_lt_of_le (by norm_num) hge
      simp [Mrf.fpow, hxpos, Mrf.fmulFin, Mrf.zeroNaN, Mrf.isFiniteVal]
    · rw [hnan]
      by_cases hct : ct = 0
      · simp [Mrf.fpow, hct, Mrf.fmulFin, Mrf.zeroNaN, Mrf.isFiniteVal]
      · simp [Mrf.fpow, hct, Mrf.fmulFin, Mrf.zeroNaN, Mrf.isFiniteVal]
  · intro v hv
    cases v with
    | fin x => simp [Mrf.isFiniteVal] at hv
    | nan => rfl
    | pinf => rfl
    | ninf => rfl
  · intro x hx
    have hc : Mrf.clampRatio (.fin x) = if x < 0.1 ∨ 10 < x then .fin 1 else .fin x := rfl
    rw [hc, if_pos hx]

/-- Witness for C3: a +Inf ratio pixel is sanitised to 0, and the
normalised ratio 0 (below 0.1) is forced to 1. -/
theorem c3_flux_model_finite_witness :
    Mrf.isFiniteVal Mrf.FVal.pinf = false ∧ Mrf.ratioSanitize Mrf.FVal.pinf = 0 ∧
    ((0 : ℚ) < 0.1 ∨ 10 < (0 : ℚ)) ∧ Mrf.clampRatio (Mrf.FVal.fin 0) = Mrf.FVal.fin 1 := by
  refine ⟨rfl, c3_flux_model_finite.2.1 Mrf.FVal.pinf rfl, by norm_num, ?_⟩
  exact c3_flux_model_finite.2.2 0 (by norm_num)

/-- Claim C4: in the hybrid PSF, every canvas pixel outside the embedded
empirical core carries the unit-normalised aureole value times
flux_inn/flux_out, and after the final renormalisation and rescaling the
flux of the composite PSF within the hybrid radius equals the flux of the
original empirical PSF within that radius times the net applied
renormalisation factor. -/
theorem c4_hybrid_psf (P : Mrf.HybridParams) :
    (∀ i j, ¬ Mrf.inCore P i j →
      Mrf.new_psf2 P i j = P.outer_psf i j * (P.flux_inn / P.flux_out)) ∧
    Mrf.coreFlux P (Mrf.final_psf P) = Mrf.renormFactor P * Mrf.empCoreFlux P := by
  refine ⟨fun i j h => Mrf.new_psf2_outside P i j h, ?_⟩
  unfold Mrf.coreFlux Mrf.empCoreFlux
  rw [Finset.mul_sum]
  refine Finset.sum_congr rfl (fun i _ => ?_)
  rw [Finset.mul_sum]
  refine Finset.sum_congr rfl (fun j _ => ?_)
  by_cases h : Mrf.inCore P i j
  · rw [if_pos h, if_pos h, Mrf.final_psf_core P i j h]
  · rw [if_neg h, if_neg h, mul_zero]

/-- Witness for C4: in the 5×5 example configuration, the corner pixel
(0,0) is outside the embedded core and its pre-normalisation composite
value is the aureole value 1 times flux_inn/flux_out = 2/3. -/
theorem c4_hybrid_psf_witness :
    ¬ Mrf.inCore Mrf.hybridExample 0 0 ∧
    Mrf.new_psf2 Mrf.hybridExample 0 0
      = Mrf.hybridExample.outer_psf 0 0
        * (Mrf.hybridExample.flux_inn / Mrf.hybridExample.flux_out) ∧
    Mrf.new_psf2 Mrf.hybridExample 0 0 = 2 / 3 := by
  have h := (c4_hybrid_psf Mrf.hybridExample).1 0 0 (by decide)
  refine ⟨by decide, h, ?_⟩
  rw [h]
  norm_num [Mrf.hybridExample]

/-- Claim C5: in the wide-PSF halo loop a star with measured magnitude
brighter than 15.5 and a truthy cross-matched Pan-STARRS magnitude is
scaled by 10^(-p(m)/2.5) with p the second-order polynomial fit; a bright
star whose external magnitude is unavailable (masked, or 0.0 under Python
truthiness) and every star with magnitude ≥ 15.5 is scaled by its raw
measured flux; the fit sample is exactly the stars with external
magnitude strictly between 0 and 16 and an unmasked match. -/
theorem c5_star_flux_selection :
    (∀ (tenPow : ℚ → ℚ) (mag flux v a b c : ℚ), mag < 15.5 → v ≠ 0 →
      Mrf.starNorm tenPow mag flux (some v) a b c
        = tenPow (-(Mrf.polyval2 a b c v) / 2.5)) ∧
    (∀ (tenPow : ℚ → ℚ) (mag flux a b c : ℚ), mag < 15.5 →
      Mrf.starNorm tenPow mag flux none a b c = flux) ∧
    (∀ (tenPow : ℚ → ℚ) (mag flux a b c : ℚ), mag < 15.5 →
      Mrf.starNorm tenPow mag flux (some 0) a b c = flux) ∧
    (∀ (tenPow : ℚ → ℚ) (mag flux a b c : ℚ) (em : Option ℚ), 15.5 ≤ mag →
      Mrf.starNorm tenPow mag flux em a b c = flux) ∧
    (∀ (x : ℚ) (msk : Bool),
      Mrf.fitSelect x msk = true ↔ (0 < x ∧ x < 16 ∧ msk = false)) := by
  refine ⟨?_, ?_, ?_, ?_, ?_⟩
  · intro tenPow mag flux v a b c hmag hv
    unfold Mrf.starNorm
    rw [if_pos hmag]
    simp [Mrf.psMagTruthy, hv]
  · intro tenPow mag flux a b c hmag
    unfold Mrf.starNorm
    rw [if_pos hmag]
    simp [Mrf.psMagTruthy]
  · intro tenPow mag flux a b c hmag
    unfold Mrf.starNorm
    rw [if_pos hmag]
    simp [Mrf.psMagTruthy]
  · intro tenPow mag flux a b c em hmag
    unfold Mrf.starNorm
    rw [if_neg (not_lt.mpr hmag)]
  · intro x msk
    unfold Mrf.fitSelect
    constructor
    · intro hsel
      simp only [Bool.and_eq_true, decide_eq_true_eq, Bool.not_eq_true'] at hsel
      exact ⟨hsel.1.2, hsel.1.1, hsel.2⟩
    · rintro ⟨h1, h2, h3⟩
      simp [h1, h2, h3]

/-- Witness for C5: with the identity in place of the external power map,
a star of magnitude 10 with Pan-STARRS magnitude 14 and the polynomial
p(m) = m is scaled by the fitted-relation flux, and a star of magnitude
16 falls back to its raw flux 7. -/
theorem c5_star_flux_selection_witness :
    (10 : ℚ) < 15.5 ∧ (14 : ℚ) ≠ 0 ∧
    Mrf.starNorm id 10 7 (some 14) 0 1 0 = -(Mrf.polyval2 0 1 0 14) / 2.5 ∧
    (15.5 : ℚ) ≤ 16 ∧ Mrf.starNorm id 16 7 (some 14) 0 1 0 = 7 := by
  refine ⟨by norm_num, by norm_num, ?_, by norm_num, ?_⟩
  · exact c5_star_flux_selection.1 id 10 7 14 0 1 0 (by norm_num) (by norm_num)
  · exact c5_star_flux_selection.2.2.2.1 id 16 7 0 1 0 (some 14) (by norm_num)

/-- Claim C6 (counterexample): under the default stitching method
("swarp") the image tiles are combined with MEDIAN, not mean, and the
stitched file list always has 16 entries regardless of the number of
tiles the run produced (here 9). -/
theorem c6_stitch_counterexample :
    Mrf.stitchCombine "swarp" "image" = Except.ok "MEDIAN" ∧
    ¬ Mrf.stitchCombine "swarp" "image" = Except.ok "mean" ∧
    (Mrf.stitchFilenameList "t" "n" "g" 9).length ≠ 9 := by
  refine ⟨rfl, ?_, ?_⟩
  · intro hctr
    have : "MEDIAN" = "mean" := Except.ok.inj hctr
    simp at this
  · simp [Mrf.stitchFilenameList]

/-- Claim C6 (amended): the stitching step combines the 16 hard-coded
tile files (indices 0..15, independent of how many tiles the run
produced) into one mosaic — by median co-addition under the default
"swarp" method and by mean under "reproject" — combines the masks by
sum-then-threshold under both methods, rejects any other method, and the
final output blanks (zeros) every image pixel flagged in the stitched
mask mosaic. -/
theorem c6_stitch_amended (m t : String) (x img : ℚ) (f : Bool)
    (d nm b : String) (n1 n2 : ℕ) :
    Mrf.stitchCombine "swarp" "image" = Except.ok "MEDIAN" ∧
    Mrf.stitchCombine "reproject" "image" = Except.ok "mean" ∧
    Mrf.stitchCombine "swarp" "mask" = Except.ok "SUM" ∧
    Mrf.stitchCombine "reproject" "mask" = Except.ok "sum" ∧
    (¬ m = "swarp" → ¬ m = "reproject" →
      Mrf.stitchCombine m t = Except.error "stitch_method must be swarp or reproject") ∧
    Mrf.maskPixelFlagged (Mrf.swarpMaskThreshold x) = decide (0 < x) ∧
    Mrf.combineFinalPixel img f = (if f then 0 else img) ∧
    (Mrf.stitchFilenameList d nm b n1).length = 16 ∧
    Mrf.stitchFilenameList d nm b n1 = Mrf.stitchFilenameList d nm b n2 := by
  refine ⟨rfl, rfl, rfl, rfl, ?_, ?_, ?_, ?_, rfl⟩
  · intro h1 h2
    unfold Mrf.stitchCombine
    rw [if_pos]
    tauto
  · by_cases hx : (0 : ℚ) < x
    · simp [Mrf.maskPixelFlagged, Mrf.swarpMaskThreshold, hx]
    · simp [Mrf.maskPixelFlagged, Mrf.swarpMaskThreshold, hx]
  · cases f with
    | true => simp [Mrf.combineFinalPixel]
    | false => simp [Mrf.combineFinalPixel]
  · simp [Mrf.stitchFilenameList]

/-- Witness for C6 (amended): the method string "mosaic" is neither swarp
nor reproject and is rejected with a ValueError. -/
theorem c6_stitch_amended_witness :
    ¬ "mosaic" = "swarp" ∧ ¬ "mosaic" = "reproject" ∧
    Mrf.stitchCombine "mosaic" "image"
      = Except.error "stitch_method must be swarp or reproject" := by
  refine ⟨by decide, by decide, ?_⟩
  exact (c6_stitch_amended "mosaic" "image" 0 0 false "d" "n" "g" 0 0).2.2.2.2.1
    (by decide) (by decide)

/-- Claim C7 (code evaluated at the failing input): with 2 tiles of which
tile 0 has no low-res overlap, the cutting loop silently skips it
(skipped = 1, only tile 1 written, no error) — but the trim stage, which
iterates over all N_tiles = 2 indices of the length-1 centre list,
hits an out-of-range read (IndexError) and aborts; with no skip the trim
stage succeeds. -/
theorem c7_skip_trim_indexerror :
    Mrf.tileCutLoop 2 (fun i => decide (i = 1)) = (1, 1, [1]) ∧
    Mrf.trimStage 2 [100] = none ∧
    Mrf.trimStage 2 [100, 200] = some [100, 200] := by
  refine ⟨rfl, rfl, rfl⟩

/-- Claim C9: every star whose per-star processing raises is recorded in
the bad-index list and its slot holds the sentinel patch; the stack is
never aborted; deleting the bad indices leaves exactly the surviving
(successfully processed) patches, so the median PSF is computed only over
them; the bad and surviving counts add up to the number of candidates. -/
theorem c9_psf_stack_sentinel (α : Type) (medFn : List α → α)
    (proc : List (Option α)) (sentinel : α) :
    Mrf.medianStack medFn proc sentinel = medFn (proc.filterMap id) ∧
    (∀ i : ℕ, proc[i]? = some none →
      (Mrf.stackSet proc sentinel)[i]? = some sentinel) ∧
    (Mrf.badIndices proc).length + (proc.filterMap id).length = proc.length := by
  refine ⟨?_, ?_, Mrf.badIndices_length proc⟩
  · unfold Mrf.medianStack
    rw [Mrf.npDelete_stackSet]
  · intro i hi
    unfold Mrf.stackSet
    rw [List.getElem?_map, hi]
    rfl

/-- Witness for C9: a concrete stack of two candidates where the second
raises; its slot holds the sentinel patch 9. -/
theorem c9_psf_stack_sentinel_witness :
    ([some (1 : ℚ), none])[1]? = some none ∧
    (Mrf.stackSet [some (1 : ℚ), none] 9)[1]? = some (9 : ℚ) ∧
    Mrf.medianStack (fun l => l.headD 0) [some (1 : ℚ), none] 9 = 1 := by
  refine ⟨rfl, (c9_psf_stack_sentinel ℚ (fun l => l.headD 0) [some 1, none] 9).2.1 1 rfl, ?_⟩
  rw [(c9_psf_stack_sentinel ℚ (fun l => l.headD 0) [some 1, none] 9).1]
  rfl
